import Mathlib

/-
Verification of the snake game engine in snake-lib/src/lib.rs.

The Rust types are embedded shallowly:
  Coordinate { x: i32, y: i32 }      -> structure with Int fields
  Direction, Turn                    -> inductive enums
  Snake = VecDeque<Coordinate>       -> List Coordinate, head of the list is the front
  active_cells: HashSet<Coordinate>  -> Finset Coordinate
  width, height: u16                 -> Nat
  growth: u32                        -> Nat, additions reduced mod 2^32
Game.advance returns none exactly when the Rust code would reach one of its
unwrap calls on an empty snake (front or pop_back on an empty VecDeque).
-/

structure Coordinate where
  x : Int
  y : Int
deriving DecidableEq, Repr

inductive Turn where
  | Left
  | Right
deriving DecidableEq, Repr

inductive Direction where
  | North
  | South
  | East
  | West
deriving DecidableEq, Repr

structure Game where
  snake : List Coordinate
  active_cells : Finset Coordinate
  direction : Direction
  width : Nat
  height : Nat
  growth : Nat
  game_over : Bool
deriving DecidableEq

structure SnakeChange where
  removed : Option Coordinate
  added : Option Coordinate
deriving DecidableEq, Repr

/-- Modulus of the u32 growth counter. -/
def U32_MOD : Nat := 4294967296

/-- Coordinate.out_of_bounds from lib.rs lines 41 to 45. -/
def Coordinate.out_of_bounds (c : Coordinate) (g : Game) : Bool :=
  decide (c.x < 0 ∨ (g.width : Int) ≤ c.x ∨ c.y < 0 ∨ (g.height : Int) ≤ c.y)

/-- Direction.turn from lib.rs lines 47 to 60, the fixed 4 by 2 table. -/
def Direction.turn : Direction → Turn → Direction
  | .East, .Left => .North
  | .East, .Right => .South
  | .West, .Left => .South
  | .West, .Right => .North
  | .North, .Left => .West
  | .North, .Right => .East
  | .South, .Left => .East
  | .South, .Right => .West

/-- Coordinate.advance from lib.rs lines 62 to 83; y grows downward. -/
def Coordinate.advance (c : Coordinate) : Direction → Coordinate
  | .North => ⟨c.x, c.y - 1⟩
  | .South => ⟨c.x, c.y + 1⟩
  | .East => ⟨c.x + 1, c.y⟩
  | .West => ⟨c.x - 1, c.y⟩

/-- Game.new from lib.rs lines 86 to 102: single segment at the board centre,
direction East, growth 3, game_over false. -/
def Game.new (width height : Nat) : Game where
  snake := [⟨((width / 2 : Nat) : Int), ((height / 2 : Nat) : Int)⟩]
  active_cells := {⟨((width / 2 : Nat) : Int), ((height / 2 : Nat) : Int)⟩}
  direction := .East
  width := width
  height := height
  growth := 3
  game_over := false

/-- Game.turn from lib.rs lines 104 to 106: unconditionally rotates the
current direction, with no game_over guard. -/
def Game.turn (g : Game) (t : Turn) : Game :=
  { g with direction := g.direction.turn t }

/-- Game.grow from lib.rs lines 108 to 110: u32 addition, which wraps mod
2^32 in release builds. -/
def Game.grow (g : Game) (n : Nat) : Game :=
  { g with growth := (g.growth + n) % U32_MOD }

/-- Tail handling inside Game.advance (lib.rs lines 118 to 124): if growth is
positive decrement it, otherwise pop the back cell from the snake and the
occupancy set, recording it as removed. -/
def afterTail (g : Game) (front : Coordinate) (rest : List Coordinate) :
    Game × Option Coordinate :=
  if 0 < g.growth then
    ({ g with growth := g.growth - 1 }, none)
  else
    ({ g with
        snake := (front :: rest).dropLast
        active_cells :=
          g.active_cells.erase ((front :: rest).getLast (List.cons_ne_nil front rest)) },
      some ((front :: rest).getLast (List.cons_ne_nil front rest)))

/-- Collision check and head insertion inside Game.advance (lib.rs lines 126
to 132): the new front is tested against the bounds and the occupancy set as
it stands after tail handling. -/
def checkMove (g1 : Game) (removed : Option Coordinate) (new_front : Coordinate) :
    Game × SnakeChange :=
  if new_front.out_of_bounds g1 = true ∨ new_front ∈ g1.active_cells then
    ({ g1 with game_over := true }, ⟨removed, none⟩)
  else
    ({ g1 with
        snake := new_front :: g1.snake
        active_cells := insert new_front g1.active_cells },
      ⟨removed, some new_front⟩)

/-- Body of Game.advance for a non-empty snake with front element given. -/
def advanceCore (g : Game) (front : Coordinate) (rest : List Coordinate) :
    Game × SnakeChange :=
  checkMove (afterTail g front rest).1 (afterTail g front rest).2
    (front.advance g.direction)

/-- Game.advance from lib.rs lines 112 to 135. Returns none exactly when the
Rust code would unwrap a value popped from an empty snake. -/
def Game.advance (g : Game) : Option (Game × SnakeChange) :=
  if g.game_over then some (g, ⟨none, none⟩)
  else
    match g.snake with
    | [] => none
    | front :: rest => some (advanceCore g front rest)

/-- game_step from lib.rs lines 147 to 169, with the polled input passed in
as a value and the display collaborator elided: apply at most one turn, run
the growth cadence on the counter, then advance. -/
def game_step (pollResult : Option Turn) (counter : Nat) (g : Game) :
    Option (Nat × Game × SnakeChange) :=
  let g0 := match pollResult with
    | some t => g.turn t
    | none => g
  let cg :=
    if 20 < counter then (0, g0.grow 3)
    else (counter + 1, g0)
  (cg.2.advance).map (fun p => (cg.1, p.1, p.2))

/-- Iterate game_step with an input source that never yields a turn. -/
def run_steps : Nat → Nat → Game → Option (Nat × Game)
  | 0, c, g => some (c, g)
  | n + 1, c, g =>
    match game_step none c g with
    | some (c1, g1, _) => run_steps n c1 g1
    | none => none

/-- Iterate Game.advance, discarding the reported changes. -/
def advanceN : Nat → Game → Option Game
  | 0, g => some g
  | n + 1, g =>
    match g.advance with
    | some (g1, _) => advanceN n g1
    | none => none

/-- Iterate Game.advance, collecting the reported changes in call order. -/
def advanceChanges : Nat → Game → Option (List SnakeChange)
  | 0, _ => some []
  | n + 1, g =>
    match g.advance with
    | some (g1, c) => (advanceChanges n g1).map (fun cs => c :: cs)
    | none => none

/-- States reachable from Game.new by any sequence of turn, grow and advance
calls, advance steps being those that complete without hitting an unwrap. -/
inductive Reachable : Game → Prop where
  | new (w h : Nat) : Reachable (Game.new w h)
  | turn {g : Game} (t : Turn) : Reachable g → Reachable (g.turn t)
  | grow {g : Game} (n : Nat) : Reachable g → Reachable (g.grow n)
  | advance {g g1 : Game} {c : SnakeChange} :
      Reachable g → g.advance = some (g1, c) → Reachable g1

/-- Reachability restricted to grow calls that do not wrap the u32 growth
counter. -/
inductive ReachableNW : Game → Prop where
  | new (w h : Nat) : ReachableNW (Game.new w h)
  | turn {g : Game} (t : Turn) : ReachableNW g → ReachableNW (g.turn t)
  | grow {g : Game} (n : Nat) :
      ReachableNW g → g.growth + n < U32_MOD → ReachableNW (g.grow n)
  | advance {g g1 : Game} {c : SnakeChange} :
      ReachableNW g → g.advance = some (g1, c) → ReachableNW g1

/-- A game-over state: the result of the single advance of Game.new 1 1,
whose new head (1, 0) leaves the 1 by 1 board. -/
def gameOverExample : Game where
  snake := [⟨0, 0⟩]
  active_cells := {⟨0, 0⟩}
  direction := .East
  width := 1
  height := 1
  growth := 2
  game_over := true

/-- A live state whose snake occupies a 2 by 2 square, heading South so that
the next head cell is exactly the current tail cell. -/
def tailChaseExample : Game where
  snake := [⟨3, 2⟩, ⟨4, 2⟩, ⟨4, 3⟩, ⟨3, 3⟩]
  active_cells := {⟨3, 2⟩, ⟨4, 2⟩, ⟨4, 3⟩, ⟨3, 3⟩}
  direction := .South
  width := 6
  height := 6
  growth := 0
  game_over := false

/-- The state reached from Game.new 1 1 by a wrapping grow call followed by
one advance: the lone tail cell is popped before the wall collision is
detected, leaving the snake empty. -/
def emptySnakeState : Game where
  snake := []
  active_cells := ∅
  direction := .East
  width := 1
  height := 1
  growth := 0
  game_over := true

/-- Closed form of the snake after k straight advances from Game.new w h
while the game is still live: head at x = w / 2 + k, body trailing behind,
length min k 3 + 1. -/
def straightSnake (w h k : Nat) : List Coordinate :=
  (List.range (min k 3 + 1)).map
    (fun i => ⟨((w / 2 + k - i : Nat) : Int), ((h / 2 : Nat) : Int)⟩)

/-- Closed form of the game state after k straight advances from
Game.new w h while no collision has occurred. -/
def straightState (w h k : Nat) : Game where
  snake := straightSnake w h k
  active_cells := (straightSnake w h k).toFinset
  direction := .East
  width := w
  height := h
  growth := 3 - k
  game_over := false

/-- Claim C1: once game_over is true, every advance call returns the empty
change (removed none, added none) and leaves the whole state unchanged. -/
theorem claim_C1_advance_after_game_over (g : Game) (h : g.game_over = true) :
    g.advance = some (g, ⟨none, none⟩) := by
  simp [Game.advance, h]

theorem claim_C1_witness :
    gameOverExample.game_over = true ∧
      gameOverExample.advance = some (gameOverExample, ⟨none, none⟩) :=
  ⟨rfl, claim_C1_advance_after_game_over gameOverExample rfl⟩

/-- Claim C8: from Game.new 20 20 with no turn or grow calls, the first four
advance calls report, in order, added (11,10), (12,10), (13,10) with nothing
removed, then added (14,10) with (10,10) removed. -/
theorem claim_C8_first_four_changes :
    advanceChanges 4 (Game.new 20 20) =
      some [⟨none, some ⟨11, 10⟩⟩, ⟨none, some ⟨12, 10⟩⟩,
        ⟨none, some ⟨13, 10⟩⟩, ⟨some ⟨10, 10⟩, some ⟨14, 10⟩⟩] := by decide

/-- Claim C9: for every direction, a Left turn changes it, Left then Right
is the identity, Right then Left is the identity, and four equal turns in
a row are the identity. -/
theorem claim_C9_turn_algebra (d : Direction) :
    d.turn .Left ≠ d ∧
    (d.turn .Left).turn .Right = d ∧
    (d.turn .Right).turn .Left = d ∧
    (((d.turn .Left).turn .Left).turn .Left).turn .Left = d ∧
    (((d.turn .Right).turn .Right).turn .Right).turn .Right = d := by
  cases d <;> exact ⟨by decide, by decide, by decide, by decide, by decide⟩

/-- Claim C4 counterexample: starting from counter 0 with no input, after the
21st game_step call the counter is 21, not 0, and the growth counter is 0,
so no cadence growth was applied on the 21st call. -/
theorem claim_C4_counterexample :
    (run_steps 21 0 (Game.new 100 100)).map (fun p => (p.1, p.2.growth)) =
      some (21, 0) := by decide

/-- Claim C4 amended: the first 21 calls each increment the counter, so the
counter is 21 with no cadence growth after the 21st call; the 22nd call,
with counter 21 going in and 21 greater than 20, resets the counter to 0 and
applies 3 units of growth (one of which that same advance consumes). -/
theorem claim_C4_cadence_on_22nd_call :
    (run_steps 21 0 (Game.new 100 100)).map (fun p => (p.1, p.2.growth)) =
      some (21, 0) ∧
    (run_steps 22 0 (Game.new 100 100)).map (fun p => (p.1, p.2.growth)) =
      some (0, 2) := by decide

/-- Claim C5 counterexample: the advance of Game.new 1 1 reaches a state with
game_over true, and a Left turn there changes the direction field from East
to North, so turning in a game-over state is not effect free. -/
theorem claim_C5_counterexample :
    ((Game.new 1 1).advance).map
        (fun p => (p.1.game_over, p.1.direction, (p.1.turn Turn.Left).direction)) =
      some (true, Direction.East, Direction.North) := by decide

/-- Claim C5 amended: turn always rewrites exactly the direction field, even
when game_over is true; the other fields are untouched and the subsequent
advance calls are still empty no-ops. -/
theorem claim_C5_turn_after_game_over (g : Game) (t : Turn) (h : g.game_over = true) :
    g.turn t = { g with direction := g.direction.turn t } ∧
    (g.turn t).advance = some (g.turn t, ⟨none, none⟩) :=
  ⟨rfl, by simp [Game.advance, Game.turn, h]⟩

theorem claim_C5_witness :
    gameOverExample.game_over = true ∧
    (gameOverExample.turn Turn.Left =
        { gameOverExample with direction := Direction.North } ∧
      (gameOverExample.turn Turn.Left).advance =
        some (gameOverExample.turn Turn.Left, ⟨none, none⟩)) :=
  ⟨rfl, claim_C5_turn_after_game_over gameOverExample Turn.Left rfl⟩

/-- Claim C6 counterexample: Game.new 0 0 is not rejected; it produces the
ordinary state with one segment at (0, 0), growth 3 and game_over false. -/
theorem claim_C6_counterexample :
    Game.new 0 0 =
      { snake := [⟨0, 0⟩], active_cells := {⟨0, 0⟩}, direction := .East,
        width := 0, height := 0, growth := 3, game_over := false } := by decide

/-- Claim C6 amended: construction with a zero dimension is not rejected; it
produces the usual centred single-segment live state, and the first advance
then immediately sets game_over because every move leaves the empty board. -/
theorem claim_C6_new_zero_dims (w h : Nat) (hz : w = 0 ∨ h = 0) :
    (Game.new w h).game_over = false ∧
    (Game.new w h).snake = [⟨((w / 2 : Nat) : Int), ((h / 2 : Nat) : Int)⟩] ∧
    ((Game.new w h).advance).map (fun p => p.1.game_over) = some true := by
  refine ⟨rfl, rfl, ?_⟩
  rcases hz with hz | hz <;> subst hz <;>
    simp [Game.advance, Game.new, advanceCore, afterTail, checkMove,
      Coordinate.advance, Coordinate.out_of_bounds]

theorem claim_C6_witness :
    ((0 : Nat) = 0 ∨ (5 : Nat) = 0) ∧
    ((Game.new 0 5).game_over = false ∧
      (Game.new 0 5).snake = [⟨0, 2⟩] ∧
      ((Game.new 0 5).advance).map (fun p => p.1.game_over) = some true) :=
  ⟨Or.inl rfl, claim_C6_new_zero_dims 0 5 (Or.inl rfl)⟩

/-- Claim C10 counterexample: a grow call of 4294967293 wraps the u32 growth
counter of a fresh Game.new 1 1 from 3 to 0, and the next advance pops the
only snake cell before dying at the wall, reaching a state whose snake
sequence is empty. -/
theorem claim_C10_counterexample :
    ∃ g : Game, Reachable g ∧ g.snake = [] :=
  ⟨emptySnakeState,
    @Reachable.advance ((Game.new 1 1).grow 4294967293) emptySnakeState
      ⟨some ⟨0, 0⟩, none⟩
      (Reachable.grow 4294967293 (Reachable.new 1 1)) (by decide),
    rfl⟩

lemma advance_of_game_over {g : Game} (hgo : g.game_over = true) :
    g.advance = some (g, ⟨none, none⟩) := by
  simp [Game.advance, hgo]

lemma advance_of_cons {g : Game} {front : Coordinate} {rest : List Coordinate}
    (hgo : g.game_over = false) (hsn : g.snake = front :: rest) :
    g.advance = some (advanceCore g front rest) := by
  simp [Game.advance, hgo, hsn]

lemma advance_of_nil {g : Game} (hgo : g.game_over = false) (hsn : g.snake = []) :
    g.advance = none := by
  simp [Game.advance, hgo, hsn]

lemma getLast_not_mem_dropLast (l : List Coordinate) (h : l ≠ []) (hnd : l.Nodup) :
    l.getLast h ∉ l.dropLast := by
  have hl := List.dropLast_append_getLast h
  rw [← hl] at hnd
  rcases List.nodup_append.mp hnd with ⟨-, -, hdisj⟩
  intro hmem
  exact hdisj hmem (by simp)

lemma toFinset_erase_getLast (l : List Coordinate) (h : l ≠ []) (hnd : l.Nodup) :
    l.toFinset.erase (l.getLast h) = l.dropLast.toFinset := by
  have hl := List.dropLast_append_getLast h
  have hnm := getLast_not_mem_dropLast l h hnd
  ext a
  simp only [Finset.mem_erase, List.mem_toFinset]
  constructor
  · rintro ⟨hne, hmem⟩
    rw [← hl] at hmem
    rcases List.mem_append.mp hmem with hm | hm
    · exact hm
    · simp only [List.mem_singleton] at hm
      exact absurd hm hne
  · intro hmem
    refine ⟨fun ha => hnm (ha ▸ hmem), ?_⟩
    rw [← hl]
    exact List.mem_append.mpr (Or.inl hmem)

/-- The occupancy set mirrors the snake sequence, and the snake cells stay
pairwise distinct, in every reachable state. -/
theorem reachable_invariant {g : Game} (hg : Reachable g) :
    g.active_cells = g.snake.toFinset ∧ g.snake.Nodup := by
  induction hg with
  | new w h =>
    constructor
    · simp [Game.new]
    · simp [Game.new]
  | turn t hr ih => exact ih
  | grow n hr ih => exact ih
  | @advance ga gb c hr hadv ih =>
    cases hgo : ga.game_over with
    | true =>
      rw [advance_of_game_over hgo] at hadv
      have h2 := Option.some.inj hadv
      rw [Prod.mk.injEq] at h2
      obtain ⟨rfl, -⟩ := h2
      exact ih
    | false =>
      rcases hsn : ga.snake with _ | ⟨front, rest⟩
      · rw [advance_of_nil hgo hsn] at hadv
        cases hadv
      · rw [advance_of_cons hgo hsn] at hadv
        have hadv1 : advanceCore ga front rest = (gb, c) := Option.some.inj hadv
        obtain ⟨hinv, hnd⟩ := ih
        rw [hsn] at hinv hnd
        by_cases hgr : 0 < ga.growth
        · have h1 : afterTail ga front rest = ({ ga with growth := ga.growth - 1 }, none) := by
            simp [afterTail, hgr]
          rw [advanceCore, h1] at hadv1
          simp only [checkMove] at hadv1
          split_ifs at hadv1 with hcol
          · cases hadv1
            exact ⟨by simpa [hsn] using hinv, by simpa [hsn] using hnd⟩
          · have hnf : front.advance ga.direction ∉ ga.active_cells :=
              fun hm => hcol (Or.inr hm)
            cases hadv1
            constructor
            · show insert (front.advance ga.direction) ga.active_cells =
                (front.advance ga.direction :: ga.snake).toFinset
              rw [List.toFinset_cons, hsn, hinv]
            · show (front.advance ga.direction :: ga.snake).Nodup
              rw [hsn]
              refine List.nodup_cons.mpr ⟨?_, hnd⟩
              intro hm
              exact hnf (hinv ▸ List.mem_toFinset.mpr hm)
        · have h1 : afterTail ga front rest =
              ({ ga with
                  snake := (front :: rest).dropLast
                  active_cells :=
                    ga.active_cells.erase
                      ((front :: rest).getLast (List.cons_ne_nil front rest)) },
                some ((front :: rest).getLast (List.cons_ne_nil front rest))) := by
            simp [afterTail, hgr]
          have hcells : ga.active_cells.erase
                ((front :: rest).getLast (List.cons_ne_nil front rest)) =
              (front :: rest).dropLast.toFinset := by
            rw [hinv]
            exact toFinset_erase_getLast (front :: rest) (List.cons_ne_nil front rest) hnd
          have hndrop : (front :: rest).dropLast.Nodup :=
            (List.dropLast_sublist _).nodup hnd
          rw [advanceCore, h1] at hadv1
          simp only [checkMove] at hadv1
          split_ifs at hadv1 with hcol
          · cases hadv1
            exact ⟨hcells, hndrop⟩
          · have hnf : front.advance ga.direction ∉ (front :: rest).dropLast.toFinset :=
              fun hm => hcol (Or.inr (hcells ▸ hm))
            cases hadv1
            constructor
            · show insert (front.advance ga.direction)
                  (ga.active_cells.erase
                    ((front :: rest).getLast (List.cons_ne_nil front rest))) =
                (front.advance ga.direction :: (front :: rest).dropLast).toFinset
              rw [List.toFinset_cons, hcells]
            · exact List.nodup_cons.mpr
                ⟨fun hm => hnf (List.mem_toFinset.mpr hm), hndrop⟩

/-- Claim C2: in every state reachable from Game.new by turn, grow and
advance calls, the occupancy set equals exactly the set of coordinates in
the snake sequence. -/
theorem claim_C2_occupancy_mirror {g : Game} (hg : Reachable g) :
    g.active_cells = g.snake.toFinset :=
  (reachable_invariant hg).1

theorem claim_C2_witness :
    Reachable (Game.new 20 20) ∧
      (Game.new 20 20).active_cells = (Game.new 20 20).snake.toFinset :=
  ⟨Reachable.new 20 20, claim_C2_occupancy_mirror (Reachable.new 20 20)⟩

/-- While the u32 growth counter never wraps, the snake is never empty, and
in a live state the growth still owed plus the current length is at least
the initial 4. -/
theorem reachableNW_invariant {g : Game} (hg : ReachableNW g) :
    g.snake ≠ [] ∧ (g.game_over = false → 4 ≤ g.growth + g.snake.length) := by
  induction hg with
  | new w h =>
    exact ⟨by simp [Game.new], fun _ => by simp [Game.new]⟩
  | turn t hr ih => exact ih
  | @grow ga n hr hlt ih =>
    refine ⟨ih.1, fun hgo => ?_⟩
    have hgr : (ga.grow n).growth = ga.growth + n := by
      simp [Game.grow, Nat.mod_eq_of_lt hlt]
    have h4 := ih.2 hgo
    show 4 ≤ (ga.grow n).growth + ga.snake.length
    rw [hgr]
    omega
  | @advance ga gb c hr hadv ih =>
    cases hgo : ga.game_over with
    | true =>
      rw [advance_of_game_over hgo] at hadv
      have h2 := Option.some.inj hadv
      rw [Prod.mk.injEq] at h2
      obtain ⟨rfl, -⟩ := h2
      exact ih
    | false =>
      rcases hsn : ga.snake with _ | ⟨front, rest⟩
      · rw [advance_of_nil hgo hsn] at hadv
        cases hadv
      · rw [advance_of_cons hgo hsn] at hadv
        have hadv1 : advanceCore ga front rest = (gb, c) := Option.some.inj hadv
        have hlen : 4 ≤ ga.growth + (rest.length + 1) := by
          have h4 := ih.2 hgo
          rw [hsn] at h4
          simpa using h4
        by_cases hgr : 0 < ga.growth
        · have h1 : afterTail ga front rest = ({ ga with growth := ga.growth - 1 }, none) := by
            simp [afterTail, hgr]
          rw [advanceCore, h1] at hadv1
          simp only [checkMove] at hadv1
          split_ifs at hadv1 with hcol
          · cases hadv1
            refine ⟨?_, ?_⟩
            · show ga.snake ≠ []
              rw [hsn]
              exact List.cons_ne_nil _ _
            · intro hfalse
              simp at hfalse
          · cases hadv1
            refine ⟨List.cons_ne_nil _ _, fun _ => ?_⟩
            show 4 ≤ ga.growth - 1 + (front.advance ga.direction :: ga.snake).length
            rw [hsn]
            simp only [List.length_cons]
            omega
        · have hgr0 : ga.growth = 0 := by omega
          have h1 : afterTail ga front rest =
              ({ ga with
                  snake := (front :: rest).dropLast
                  active_cells :=
                    ga.active_cells.erase
                      ((front :: rest).getLast (List.cons_ne_nil front rest)) },
                some ((front :: rest).getLast (List.cons_ne_nil front rest))) := by
            simp [afterTail, hgr]
          have hdl : (front :: rest).dropLast.length = rest.length := by
            simp [List.length_dropLast]
          have hrest : 3 ≤ rest.length := by omega
          rw [advanceCore, h1] at hadv1
          simp only [checkMove] at hadv1
          split_ifs at hadv1 with hcol
          · cases hadv1
            refine ⟨?_, ?_⟩
            · show (front :: rest).dropLast ≠ []
              intro hnil
              rw [hnil] at hdl
              simp at hdl
              omega
            · intro hfalse
              simp at hfalse
          · cases hadv1
            refine ⟨List.cons_ne_nil _ _, fun _ => ?_⟩
            show 4 ≤ ga.growth + (front.advance ga.direction :: (front :: rest).dropLast).length
            simp only [List.length_cons, hdl]
            omega

/-- Claim C10 amended: provided no grow call wraps the u32 growth counter,
every reachable state, game over or not, has a non-empty snake sequence, so
the head lookup and the tail removal inside advance always succeed. -/
theorem claim_C10_snake_nonempty {g : Game} (hg : ReachableNW g) :
    g.snake ≠ [] ∧ (g.advance).isSome = true := by
  obtain ⟨h1, -⟩ := reachableNW_invariant hg
  refine ⟨h1, ?_⟩
  rcases hsn : g.snake with _ | ⟨f, r⟩
  · exact absurd hsn h1
  · cases hgo : g.game_over with
    | true =>
      rw [advance_of_game_over hgo]
      rfl
    | false =>
      rw [advance_of_cons hgo hsn]
      rfl

theorem claim_C10_witness :
    ReachableNW (Game.new 20 20) ∧
      ((Game.new 20 20).snake ≠ [] ∧ ((Game.new 20 20).advance).isSome = true) :=
  ⟨ReachableNW.new 20 20, claim_C10_snake_nonempty (ReachableNW.new 20 20)⟩

/-- Claim C3: in a live state with no pending growth whose next head cell is
exactly the current tail cell, in bounds and on no other body cell, advance
does not set game_over: the tail is removed from the occupancy set before
the collision test, so the vacated tail cell is not a collision. -/
theorem claim_C3_tail_chase (g : Game) (front last : Coordinate)
    (hhead : g.snake.head? = some front) (hlast : g.snake.getLast? = some last)
    (hgo : g.game_over = false) (hgr : g.growth = 0)
    (hinv : g.active_cells = g.snake.toFinset) (hnd : g.snake.Nodup)
    (htail : front.advance g.direction = last)
    (hin : (front.advance g.direction).out_of_bounds g = false)
    (hbody : front.advance g.direction ∉ g.snake.dropLast.toFinset) :
    ∃ g1 c, g.advance = some (g1, c) ∧ g1.game_over = false := by
  rcases hsn : g.snake with _ | ⟨f, r⟩
  · rw [hsn] at hhead
    cases hhead
  · rw [hsn] at hhead
    have hf : front = f := by
      simpa using hhead.symm
    subst hf
    have hlast2 : (front :: r).getLast (List.cons_ne_nil front r) = last := by
      rw [hsn] at hlast
      rw [List.getLast?_eq_getLast_of_ne_nil (List.cons_ne_nil front r)] at hlast
      exact Option.some.inj hlast
    refine ⟨(advanceCore g front r).1, (advanceCore g front r).2,
      by rw [advance_of_cons hgo hsn], ?_⟩
    have hgr2 : ¬ 0 < g.growth := by omega
    have h1 : afterTail g front r =
        ({ g with
            snake := (front :: r).dropLast
            active_cells :=
              g.active_cells.erase ((front :: r).getLast (List.cons_ne_nil front r)) },
          some ((front :: r).getLast (List.cons_ne_nil front r))) := by
      simp [afterTail, hgr2]
    rw [advanceCore, h1]
    simp only [checkMove]
    have hnocol :
        ¬((front.advance g.direction).out_of_bounds
            { g with
              snake := (front :: r).dropLast
              active_cells :=
                g.active_cells.erase
                  ((front :: r).getLast (List.cons_ne_nil front r)) } = true ∨
          front.advance g.direction ∈
            g.active_cells.erase ((front :: r).getLast (List.cons_ne_nil front r))) := by
      rintro (hoob | hmem)
      · have hoob2 : (front.advance g.direction).out_of_bounds g = true := hoob
        rw [hin] at hoob2
        cases hoob2
      · rw [hlast2, htail] at hmem
        exact Finset.not_mem_erase last g.active_cells hmem
    rw [if_neg hnocol]
    exact hgo

theorem claim_C3_witness :
    tailChaseExample.snake.head? = some ⟨3, 2⟩ ∧
    tailChaseExample.snake.getLast? = some ⟨3, 3⟩ ∧
    tailChaseExample.game_over = false ∧
    tailChaseExample.growth = 0 ∧
    tailChaseExample.active_cells = tailChaseExample.snake.toFinset ∧
    tailChaseExample.snake.Nodup ∧
    Coordinate.advance ⟨3, 2⟩ tailChaseExample.direction = ⟨3, 3⟩ ∧
    (Coordinate.advance ⟨3, 2⟩ tailChaseExample.direction).out_of_bounds
      tailChaseExample = false ∧
    Coordinate.advance ⟨3, 2⟩ tailChaseExample.direction ∉
      tailChaseExample.snake.dropLast.toFinset ∧
    (∃ g1 c, tailChaseExample.advance = some (g1, c) ∧ g1.game_over = false) :=
  ⟨by decide, by decide, rfl, rfl, by decide, by decide, by decide, by decide, by decide,
    claim_C3_tail_chase tailChaseExample ⟨3, 2⟩ ⟨3, 3⟩ (by decide) (by decide) rfl rfl
      (by decide) (by decide) (by decide) (by decide) (by decide)⟩

lemma advanceN_succ_last (n : Nat) (g : Game) :
    advanceN (n + 1) g = (advanceN n g).bind (fun g1 => (g1.advance).map Prod.fst) := by
  induction n generalizing g with
  | zero =>
    cases hadv : g.advance with
    | none => simp [advanceN, hadv]
    | some p =>
      obtain ⟨g1, c⟩ := p
      simp [advanceN, hadv]
  | succ m ih =>
    cases hadv : g.advance with
    | none => simp [advanceN, hadv]
    | some p =>
      obtain ⟨g1, c⟩ := p
      have hl : advanceN (m + 1 + 1) g = advanceN (m + 1) g1 := by
        simp [advanceN, hadv]
      have hr : advanceN (m + 1) g = advanceN m g1 := by
        simp [advanceN, hadv]
      rw [hl, hr, ih g1]

lemma afterTail_fields (g : Game) (f : Coordinate) (r : List Coordinate) :
    (afterTail g f r).1.width = g.width ∧
    (afterTail g f r).1.height = g.height ∧
    (afterTail g f r).1.direction = g.direction ∧
    (afterTail g f r).1.game_over = g.game_over ∧
    (∀ c ∈ (afterTail g f r).1.active_cells, c ∈ g.active_cells) := by
  unfold afterTail
  split_ifs
  · exact ⟨rfl, rfl, rfl, rfl, fun c hc => hc⟩
  · exact ⟨rfl, rfl, rfl, rfl, fun c hc => Finset.mem_of_mem_erase hc⟩

/-- After k straight advances from a fresh game, while the head has not yet
reached the wall, the game is live, the head sits at x = w / 2 + k on the
centre row, and every occupied cell has x at most w / 2 + k. -/
lemma straight_march (w h : Nat) (hh : 1 ≤ h) :
    ∀ k, w / 2 + k < w →
      ∃ g, advanceN k (Game.new w h) = some g ∧
        g.game_over = false ∧ g.direction = Direction.East ∧
        g.width = w ∧ g.height = h ∧
        g.snake.head? = some ⟨((w / 2 + k : Nat) : Int), ((h / 2 : Nat) : Int)⟩ ∧
        (∀ c ∈ g.active_cells, c.x ≤ ((w / 2 + k : Nat) : Int)) := by
  intro k
  induction k with
  | zero =>
    intro _
    refine ⟨Game.new w h, rfl, rfl, rfl, rfl, rfl, rfl, ?_⟩
    intro c hc
    have hc2 : c = ⟨((w / 2 : Nat) : Int), ((h / 2 : Nat) : Int)⟩ := by
      simpa [Game.new] using hc
    rw [hc2]
    simp
  | succ n ih =>
    intro hk
    obtain ⟨g, hgN, hgo, hdir, hwid, hht, hhead, hcells⟩ := ih (by omega)
    rcases hsn : g.snake with _ | ⟨f, r⟩
    · rw [hsn] at hhead
      cases hhead
    · have hf : f = ⟨((w / 2 + n : Nat) : Int), ((h / 2 : Nat) : Int)⟩ := by
        rw [hsn] at hhead
        simpa using hhead
      have hnf : f.advance g.direction =
          ⟨((w / 2 + (n + 1) : Nat) : Int), ((h / 2 : Nat) : Int)⟩ := by
        rw [hf, hdir]
        simp only [Coordinate.advance, Coordinate.mk.injEq]
        constructor
        · push_cast
          ring
        · trivial
      obtain ⟨hw1, hh1, hd1, hgo1, hsub1⟩ := afterTail_fields g f r
      have hstep : advanceN (n + 1) (Game.new w h) = some (advanceCore g f r).1 := by
        rw [advanceN_succ_last, hgN]
        show (g.advance).map Prod.fst = some (advanceCore g f r).1
        rw [advance_of_cons hgo hsn]
        rfl
      have hcond : ¬((f.advance g.direction).out_of_bounds (afterTail g f r).1 = true ∨
          f.advance g.direction ∈ (afterTail g f r).1.active_cells) := by
        rintro (hoob | hmem)
        · rw [hnf] at hoob
          unfold Coordinate.out_of_bounds at hoob
          rw [hw1, hh1] at hoob
          rw [decide_eq_true_eq] at hoob
          have hyh : h / 2 < h := Nat.div_lt_self (by omega) (by omega)
          rcases hoob with h1 | h1 | h1 | h1 <;> [skip; skip; skip; skip] <;>
            · push_cast at h1
              omega
        · rw [hnf] at hmem
          have hb := hcells _ (hsub1 _ hmem)
          push_cast at hb
          omega
      have hcore : (advanceCore g f r).1 =
          { (afterTail g f r).1 with
            snake := f.advance g.direction :: (afterTail g f r).1.snake
            active_cells :=
              insert (f.advance g.direction) (afterTail g f r).1.active_cells } := by
        unfold advanceCore checkMove
        rw [if_neg hcond]
      refine ⟨(advanceCore g f r).1, hstep, ?_, ?_, ?_, ?_, ?_, ?_⟩
      · rw [hcore]
        show (afterTail g f r).1.game_over = false
        rw [hgo1]
        exact hgo
      · rw [hcore]
        show (afterTail g f r).1.direction = Direction.East
        rw [hd1]
        exact hdir
      · rw [hcore]
        show (afterTail g f r).1.width = w
        rw [hw1]
        exact hwid
      · rw [hcore]
        show (afterTail g f r).1.height = h
        rw [hh1]
        exact hht
      · rw [hcore]
        show (f.advance g.direction :: (afterTail g f r).1.snake).head? =
          some ⟨((w / 2 + (n + 1) : Nat) : Int), ((h / 2 : Nat) : Int)⟩
        rw [List.head?_cons, hnf]
      · rw [hcore]
        intro c hc
        show c.x ≤ ((w / 2 + (n + 1) : Nat) : Int)
        rcases Finset.mem_insert.mp hc with hc1 | hc1
        · rw [hc1, hnf]
        · have hb := hcells _ (hsub1 _ hc1)
          push_cast at hb ⊢
          omega

/-- Claim C7: on a board of even width w at least 2 (and positive height),
a fresh game moving straight East stays live through the first
w / 2 - 1 advances and game_over first becomes true on the advance number
w / 2. -/
theorem claim_C7_wall_hit (w h : Nat) (hw : w % 2 = 0) (h2 : 2 ≤ w) (hh : 1 ≤ h) :
    (∀ k, k < w / 2 → (advanceN k (Game.new w h)).map Game.game_over = some false) ∧
    (advanceN (w / 2) (Game.new w h)).map Game.game_over = some true := by
  constructor
  · intro k hk
    obtain ⟨g, hgN, hgo, -, -, -, -, -⟩ := straight_march w h hh k (by omega)
    rw [hgN]
    simp [hgo]
  · obtain ⟨g, hgN, hgo, hdir, hwid, hht, hhead, hcells⟩ :=
      straight_march w h hh (w / 2 - 1) (by omega)
    rcases hsn : g.snake with _ | ⟨f, r⟩
    · rw [hsn] at hhead
      cases hhead
    · have hf : f = ⟨((w / 2 + (w / 2 - 1) : Nat) : Int), ((h / 2 : Nat) : Int)⟩ := by
        rw [hsn] at hhead
        simpa using hhead
      have hnf : f.advance g.direction =
          ⟨((w / 2 + (w / 2 - 1) + 1 : Nat) : Int), ((h / 2 : Nat) : Int)⟩ := by
        rw [hf, hdir]
        simp only [Coordinate.advance, Coordinate.mk.injEq]
        constructor
        · push_cast
          ring
        · trivial
      obtain ⟨hw1, hh1, hd1, hgo1, hsub1⟩ := afterTail_fields g f r
      have hcond : (f.advance g.direction).out_of_bounds (afterTail g f r).1 = true := by
        rw [hnf]
        unfold Coordinate.out_of_bounds
        rw [hw1, hwid]
        apply decide_eq_true
        right
        left
        have hweq : w / 2 + (w / 2 - 1) + 1 = w := by omega
        rw [hweq]
      have hcore : (advanceCore g f r).1 = { (afterTail g f r).1 with game_over := true } := by
        unfold advanceCore checkMove
        rw [if_pos (Or.inl hcond)]
      have hsplit : w / 2 = (w / 2 - 1) + 1 := by omega
      have hstep : advanceN ((w / 2 - 1) + 1) (Game.new w h) = some (advanceCore g f r).1 := by
        rw [advanceN_succ_last, hgN]
        show (g.advance).map Prod.fst = some (advanceCore g f r).1
        rw [advance_of_cons hgo hsn]
        rfl
      rw [hsplit, hstep, hcore]
      rfl

theorem claim_C7_witness :
    ((20 : Nat) % 2 = 0 ∧ 2 ≤ (20 : Nat) ∧ 1 ≤ (20 : Nat)) ∧
    (advanceN 9 (Game.new 20 20)).map Game.game_over = some false ∧
    (advanceN 10 (Game.new 20 20)).map Game.game_over = some true := by
  have hmain := claim_C7_wall_hit 20 20 (by decide) (by decide) (by decide)
  exact ⟨⟨rfl, by decide, by decide⟩, hmain.1 9 (by decide), hmain.2⟩
